import Mathlib

/-!
Verification of the `ewc` word-count tool (src/counter.rs, src/output.rs,
src/cli.rs, src/main.rs) against its natural-language specification.

Text content is modelled as `List Char` (a decoded Rust `&str`); raw file
bytes as `List Nat`.  `Count.from_content`, `Count.add`, the directory
walker, the glob-filter decision logic and the JSON renderer are shallow
embeddings of the corresponding Rust functions.  Glob compilation and glob
matching live in the external `globset` crate, so a compiled glob is kept
abstract (a pair of matchers, one per `is_match` call form) and the
compiler is a parameter `compile : List Char → Option CompiledGlob`.
-/

/-- UTF-8 encoded byte length of a decoded string, as Rust `str::len`. -/
def byteLen (s : List Char) : Nat := (s.map Char.utf8Size).sum

/-- Strip one trailing carriage return, as Rust `lines` does on a segment
that was terminated by a line feed. -/
def stripCr (l : List Char) : List Char :=
  if l.getLast? = some '\r' then l.dropLast else l

/-- Worker for `rustLines`: `acc` holds the current segment reversed.  A
segment is emitted at each line feed (with a preceding carriage return
stripped); a non-empty trailing segment without a terminator is emitted
as-is, exactly as Rust `str::lines`. -/
def rustLinesGo (acc : List Char) : List Char → List (List Char)
  | [] => if acc = [] then [] else [acc.reverse]
  | c :: rest =>
    if c = '\n' then stripCr acc.reverse :: rustLinesGo [] rest
    else rustLinesGo (c :: acc) rest

/-- Model of Rust `str::lines`. -/
def rustLines (s : List Char) : List (List Char) := rustLinesGo [] s

/-- Unicode white-space test, as Rust `char::is_whitespace`. -/
def isRustWhitespace (c : Char) : Bool :=
  let n := c.toNat
  decide ((0x09 ≤ n ∧ n ≤ 0x0D) ∨ n = 0x20 ∨ n = 0x85 ∨ n = 0xA0 ∨
    n = 0x1680 ∨ (0x2000 ≤ n ∧ n ≤ 0x200A) ∨ n = 0x2028 ∨ n = 0x2029 ∨
    n = 0x202F ∨ n = 0x205F ∨ n = 0x3000)

/-- Worker counting maximal non-white-space runs; the flag records whether
the previous character was inside a word. -/
def countWordsGo (inWord : Bool) : List Char → Nat
  | [] => 0
  | c :: rest =>
    if isRustWhitespace c then countWordsGo false rest
    else (if inWord then 0 else 1) + countWordsGo true rest

/-- Model of Rust `str::split_whitespace(...).count()`. -/
def countWords (s : List Char) : Nat := countWordsGo false s

/-- Model of `iter.max().unwrap_or(0)` on an iterator of `usize`. -/
def maxOr0 (l : List Nat) : Nat := l.max?.getD 0

/-- The `Count` struct of src/counter.rs. -/
structure Count where
  lines : Nat
  words : Nat
  bytes : Nat
  max_line_length : Nat
deriving DecidableEq, Repr

/-- Model of `Count::from_content` (src/counter.rs lines 24-31): line
count, white-space word count, byte length, and the byte length (`l.len()`)
of the longest line. -/
def Count.from_content (content : List Char) : Count :=
  { lines := (rustLines content).length
    words := countWords content
    bytes := byteLen content
    max_line_length := maxOr0 ((rustLines content).map byteLen) }

/-- Model of `impl Add for Count` (src/counter.rs lines 34-45). -/
def Count.add (a b : Count) : Count :=
  { lines := a.lines + b.lines
    words := a.words + b.words
    bytes := a.bytes + b.bytes
    max_line_length := max a.max_line_length b.max_line_length }

/-- Model of `Count::default()`: the all-zero count. -/
def Count.zero : Count := ⟨0, 0, 0, 0⟩

/-- Model of `impl Sum for Count`: fold of `add` from the default count. -/
def Count.sum (l : List Count) : Count := l.foldl Count.add Count.zero

/-- Character count of the longest line segment.  This follows the SPEC's
words for `max_line_length` ("character count (not byte count) of each
segment"); it is compared against the implementation above. -/
def maxLineChars (content : List Char) : Nat :=
  maxOr0 ((rustLines content).map List.length)

/-- Number of newline-delimited segments following the SPEC's words: a
trailing partial segment with no newline still counts as one line and
empty content has zero lines. -/
def specSegments (s : List Char) : Nat :=
  if s = [] then 0
  else List.count '\n' s + (if s.getLast? = some '\n' then 0 else 1)

theorem maxOr0_nil : maxOr0 [] = 0 := rfl

theorem foldl_max_mem : ∀ (as : List Nat) (a : Nat), as.foldl max a ∈ a :: as := by
  intro as
  induction as with
  | nil => intro a; simp
  | cons b bs ih =>
    intro a
    have h := ih (max a b)
    rcases List.mem_cons.mp h with h1 | h1
    · rcases Nat.le_total a b with hab | hab
      · rw [List.foldl_cons, h1, Nat.max_eq_right hab]; simp
      · rw [List.foldl_cons, h1, Nat.max_eq_left hab]; simp
    · simp only [List.foldl_cons]
      exact List.mem_cons_of_mem _ (List.mem_cons_of_mem _ h1)

theorem le_foldl_max : ∀ (as : List Nat) (a x : Nat), x ∈ a :: as → x ≤ as.foldl max a := by
  intro as
  induction as with
  | nil => intro a x hx; simp at hx; simp [hx]
  | cons b bs ih =>
    intro a x hx
    have hm : max a b ≤ List.foldl max (max a b) bs := ih (max a b) (max a b) (by simp)
    rcases List.mem_cons.mp hx with h1 | h1
    · subst h1
      exact le_trans (Nat.le_max_left x b) hm
    · rcases List.mem_cons.mp h1 with h2 | h2
      · subst h2
        exact le_trans (Nat.le_max_right a x) hm
      · exact ih (max a b) x (List.mem_cons_of_mem _ h2)

theorem maxOr0_mem (l : List Nat) (h : l ≠ []) : maxOr0 l ∈ l := by
  cases l with
  | nil => cases h rfl
  | cons a as =>
    show (List.max? (a :: as)).getD 0 ∈ a :: as
    rw [List.max?_cons']
    exact foldl_max_mem as a

theorem le_maxOr0 (l : List Nat) (x : Nat) (h : x ∈ l) : x ≤ maxOr0 l := by
  cases l with
  | nil => cases h
  | cons a as =>
    show x ≤ (List.max? (a :: as)).getD 0
    rw [List.max?_cons']
    exact le_foldl_max as a x h

theorem rustLinesGo_length (s : List Char) : ∀ acc,
    (rustLinesGo acc s).length =
      List.count '\n' s +
        (if s.getLast? = some '\n' then 0 else if s = [] ∧ acc = [] then 0 else 1) := by
  induction s with
  | nil =>
    intro acc
    by_cases ha : acc = [] <;> simp [rustLinesGo, ha]
  | cons c rest ih =>
    intro acc
    by_cases hc : c = '\n'
    · subst hc
      cases rest with
      | nil => simp [rustLinesGo, stripCr, List.count_cons]
      | cons r rs =>
        have hrec := ih []
        have hstep : rustLinesGo acc ('\n' :: r :: rs) =
            stripCr acc.reverse :: rustLinesGo [] (r :: rs) := by
          simp [rustLinesGo]
        rw [hstep, List.length_cons, hrec]
        simp only [List.count_cons, List.getLast?_cons_cons]
        split_ifs <;> simp_all
    · cases rest with
      | nil =>
        simp [rustLinesGo, hc, List.count_cons, List.getLast?_singleton]
      | cons r rs =>
        have := ih (c :: acc)
        simp only [rustLinesGo, if_neg hc, List.count_cons, List.getLast?_cons_cons] at this ⊢
        simp only [this]
        have hb : (c == '\n') = false := by simp [hc]
        simp only [hb]
        split_ifs <;> simp_all

/-- C2: for every text content, `Count::from_content` returns `bytes` equal
to the encoded byte length of the content and `lines` equal to the number
of newline-delimited segments, a trailing partial segment counting as one
line and empty content yielding zero lines. -/
theorem C2_bytes_and_lines (content : List Char) :
    (Count.from_content content).bytes = byteLen content ∧
    (Count.from_content content).lines = specSegments content := by
  refine ⟨rfl, ?_⟩
  show (rustLines content).length = specSegments content
  rw [rustLines, rustLinesGo_length content []]
  by_cases h : content = []
  · subst h; simp [specSegments]
  · simp only [specSegments, if_neg h]
    split_ifs <;> simp_all

/-- C1 counterexample: on the one-character content `"あ"` (a single
3-byte character), `max_line_length` is 3, the byte count of the longest
line, not 1, its character count — contradicting the claim that
`max_line_length` is a character count. -/
theorem C1_counterexample :
    (Count.from_content ['あ']).max_line_length ≠ maxLineChars ['あ'] := by
  decide

/-- C1 amended: the `max_line_length` computed by `Count::from_content` is
the BYTE count of the longest line segment, over the same line segments as
the `lines` count, and is zero when the content has no lines. -/
theorem C1_amended_max_is_byte_length (content : List Char) :
    ((Count.from_content content).lines = 0 →
      (Count.from_content content).max_line_length = 0) ∧
    (∀ l ∈ rustLines content,
      byteLen l ≤ (Count.from_content content).max_line_length) ∧
    ((Count.from_content content).lines ≠ 0 →
      ∃ l ∈ rustLines content,
        byteLen l = (Count.from_content content).max_line_length) := by
  refine ⟨?_, ?_, ?_⟩
  · intro h
    have h0 : rustLines content = [] := by
      have : (rustLines content).length = 0 := h
      exact List.length_eq_zero.mp this
    show maxOr0 ((rustLines content).map byteLen) = 0
    rw [h0]; rfl
  · intro l hl
    exact le_maxOr0 _ _ (List.mem_map_of_mem byteLen hl)
  · intro h
    have hne : (rustLines content).map byteLen ≠ [] := by
      intro hmap
      have : rustLines content = [] := by
        cases hres : rustLines content with
        | nil => rfl
        | cons x xs => rw [hres] at hmap; simp at hmap
      exact h (by simp [Count.from_content, this])
    have hmem := maxOr0_mem _ hne
    rcases List.mem_map.mp hmem with ⟨l, hl, heq⟩
    exact ⟨l, hl, heq⟩

/-- Witness for the amended C1 at concrete inputs: empty content has
`max_line_length` zero, and the content `"a"` has a line achieving it. -/
theorem C1_amended_witness :
    (Count.from_content []).max_line_length = 0 ∧
    ∃ l ∈ rustLines ['a'], byteLen l = (Count.from_content ['a']).max_line_length :=
  ⟨(C1_amended_max_is_byte_length []).1 rfl,
   (C1_amended_max_is_byte_length ['a']).2.2 (by decide)⟩

/-- C3: the merge of `Count` values (`impl Add for Count`) is commutative
and associative, the all-zero count (`Count::default`) is its identity,
and it sums `lines`, `words`, `bytes` while taking the maximum of
`max_line_length`. -/
theorem C3_merge_comm_assoc_identity :
    (∀ a b : Count, a.add b = b.add a) ∧
    (∀ a b c : Count, (a.add b).add c = a.add (b.add c)) ∧
    (∀ a : Count, a.add Count.zero = a ∧ Count.zero.add a = a) ∧
    (∀ a b : Count,
      (a.add b).lines = a.lines + b.lines ∧
      (a.add b).words = a.words + b.words ∧
      (a.add b).bytes = a.bytes + b.bytes ∧
      (a.add b).max_line_length = max a.max_line_length b.max_line_length) := by
  refine ⟨?_, ?_, ?_, ?_⟩
  · intro a b; cases a; cases b
    simp [Count.add, Nat.add_comm, Nat.max_comm]
  · intro a b c; cases a; cases b; cases c
    simp [Count.add, Nat.add_assoc, Nat.max_assoc]
  · intro a; cases a
    simp [Count.add, Count.zero]
  · intro a b; exact ⟨rfl, rfl, rfl, rfl⟩

/-- A path relative to the walk root, as a list of components. -/
abbrev RelPath : Type := List (List Char)

/-- A compiled glob from the external `globset` crate, kept abstract: one
matcher per `is_match` call form used by `matches_glob` (the string form
`to_string_lossy` and the `Path` form). -/
structure CompiledGlob where
  matchStr : RelPath → Bool
  matchPath : RelPath → Bool

/-- A compiled glob set: `GlobSet::is_match` is a match by any member. -/
def globSetMatchStr (gs : List CompiledGlob) (p : RelPath) : Bool :=
  gs.any (fun g => g.matchStr p)

def globSetMatchPath (gs : List CompiledGlob) (p : RelPath) : Bool :=
  gs.any (fun g => g.matchPath p)

/-- Model of `matches_glob` (src/counter.rs lines 120-123): the set
matches either the lossy string form or the path form. -/
def matches_glob (gs : List CompiledGlob) (relative_path : RelPath) : Bool :=
  globSetMatchStr gs relative_path || globSetMatchPath gs relative_path

/-- The `io::Error` values the counter produces: an invalid glob pattern
(`ErrorKind::InvalidInput`, from `build_globset`) or undecodable file
contents (`read_to_string` on non-UTF-8 data). -/
inductive IoError where
  | invalidPattern : List Char → IoError
  | invalidData : IoError
deriving DecidableEq, Repr

/-- Model of `FilterConfig::build_globset` (src/counter.rs lines 82-99):
each pattern is compiled in order; the first failure aborts with an
invalid-pattern error.  `compile` abstracts `Glob::new`. -/
def build_globset (compile : List Char → Option CompiledGlob) :
    List (List Char) → Except IoError (List CompiledGlob)
  | [] => .ok []
  | p :: ps =>
    match compile p with
    | none => .error (.invalidPattern p)
    | some g =>
      match build_globset compile ps with
      | .error e => .error e
      | .ok gs => .ok (g :: gs)

/-- The `FilterConfig` struct of src/counter.rs. -/
structure FilterConfig where
  include_hidden : Bool
  exclude_patterns : List (List Char)
  include_patterns : List (List Char)

/-- Model of `is_hidden` (src/counter.rs lines 113-118): the base name
starts with a dot. -/
def isHiddenName (name : List Char) : Bool :=
  match name with
  | c :: _ => c = '.'
  | [] => false

/-- A directory tree: files carry their raw on-disk bytes. -/
inductive FsEntry where
  | file : List Char → List Nat → FsEntry
  | dir : List Char → List FsEntry → FsEntry

mutual

/-- Walk below the root (depth ≥ 1): `filter_entry` skips any entry whose
name is hidden unless `include_hidden` is set, pruning whole subtrees at
entry; files are yielded with their path relative to the root. -/
def walkSub (includeHidden : Bool) (pre : RelPath) :
    FsEntry → List (RelPath × List Nat)
  | .file n bs =>
    if includeHidden || !isHiddenName n then [(pre ++ [n], bs)] else []
  | .dir n es =>
    if includeHidden || !isHiddenName n then
      walkSubList includeHidden (pre ++ [n]) es
    else []

def walkSubList (includeHidden : Bool) (pre : RelPath) :
    List FsEntry → List (RelPath × List Nat)
  | [] => []
  | e :: es =>
    walkSub includeHidden pre e ++ walkSubList includeHidden pre es

end

/-- Model of the `WalkDir` + `filter_entry` traversal of `walk_directory`
(src/counter.rs lines 130-133): the root itself is at depth 0 and is
always traversed into, so the hidden-name test is never applied to it. -/
def walkRoot (includeHidden : Bool) : FsEntry → List (RelPath × List Nat)
  | .file _ bs => [([], bs)]
  | .dir _ es => walkSubList includeHidden [] es

mutual

/-- Every file of a tree with its relative path, no filtering.  Follows
the SPEC's words for what an unrestricted traversal reaches. -/
def allFilesSub (pre : RelPath) : FsEntry → List (RelPath × List Nat)
  | .file n bs => [(pre ++ [n], bs)]
  | .dir n es => allFilesSubList (pre ++ [n]) es

def allFilesSubList (pre : RelPath) : List FsEntry → List (RelPath × List Nat)
  | [] => []
  | e :: es => allFilesSub pre e ++ allFilesSubList pre es

end

/-- Every file below a root with its relative path, no filtering. -/
def allFiles : FsEntry → List (RelPath × List Nat)
  | .file _ bs => [([], bs)]
  | .dir _ es => allFilesSubList [] es

/-- The per-file accept decision of `walk_directory`'s `filter_map`
(src/counter.rs lines 135-148): reject on an exclude match, else reject
when include patterns exist and none matches, else accept. -/
def acceptFile (exclude_set include_set : List CompiledGlob)
    (has_include_patterns : Bool) (relative_path : RelPath) : Bool :=
  if matches_glob exclude_set relative_path then false
  else if has_include_patterns && !matches_glob include_set relative_path then false
  else true

/-- Model of `walk_directory` (src/counter.rs lines 125-152): build both
glob sets (propagating compile failures), then keep the files of the
hidden-aware traversal that the glob decision accepts. -/
def walk_directory (compile : List Char → Option CompiledGlob)
    (config : FilterConfig) (root : FsEntry) :
    Except IoError (List (RelPath × List Nat)) :=
  match build_globset compile config.exclude_patterns with
  | .error e => .error e
  | .ok exclude_set =>
    match build_globset compile config.include_patterns with
    | .error e => .error e
    | .ok include_set =>
      .ok ((walkRoot config.include_hidden root).filter
        (fun pc => acceptFile exclude_set include_set
          (!config.include_patterns.isEmpty) pc.1))

/-- A UTF-8 continuation byte. -/
def isCont (b : Nat) : Prop := 0x80 ≤ b ∧ b < 0xC0

instance (b : Nat) : Decidable (isCont b) := by unfold isCont; infer_instance

/-- Strict UTF-8 decoding of raw bytes, as Rust `String::from_utf8` inside
`fs::read_to_string`: rejects stray continuation bytes, overlong forms,
surrogates and values above U+10FFFF. -/
def utf8Decode : List Nat → Option (List Char)
  | [] => some []
  | b :: rest =>
    if b < 0x80 then
      (utf8Decode rest).map (fun cs => Char.ofNat b :: cs)
    else if b < 0xC2 then none
    else if b < 0xE0 then
      match rest with
      | b1 :: rest1 =>
        if isCont b1 then
          (utf8Decode rest1).map
            (fun cs => Char.ofNat ((b - 0xC0) * 0x40 + (b1 - 0x80)) :: cs)
        else none
      | [] => none
    else if b < 0xF0 then
      match rest with
      | b1 :: b2 :: rest2 =>
        if isCont b1 ∧ isCont b2 ∧ (b = 0xE0 → 0xA0 ≤ b1) ∧ (b = 0xED → b1 < 0xA0) then
          (utf8Decode rest2).map
            (fun cs =>
              Char.ofNat ((b - 0xE0) * 0x1000 + (b1 - 0x80) * 0x40 + (b2 - 0x80)) :: cs)
        else none
      | _ => none
    else if b < 0xF5 then
      match rest with
      | b1 :: b2 :: b3 :: rest3 =>
        if isCont b1 ∧ isCont b2 ∧ isCont b3 ∧
            (b = 0xF0 → 0x90 ≤ b1) ∧ (b = 0xF4 → b1 < 0x90) then
          (utf8Decode rest3).map
            (fun cs =>
              Char.ofNat ((b - 0xF0) * 0x40000 + (b1 - 0x80) * 0x1000 +
                (b2 - 0x80) * 0x40 + (b3 - 0x80)) :: cs)
        else none
      | _ => none
    else none

/-- Model of `count_file` (src/counter.rs lines 102-105): read the file as
a UTF-8 string — failing on undecodable bytes — then count its content. -/
def count_file (bytes : List Nat) : Except IoError Count :=
  match utf8Decode bytes with
  | some content => .ok (Count.from_content content)
  | none => .error .invalidData

/-- The `FileEntry` struct of src/counter.rs, with the path relative to
the walked root. -/
structure FileEntry where
  path : RelPath
  count : Count
deriving DecidableEq

/-- Three-way comparison on characters by code point, the byte order the
OS-string comparison of `Path::cmp` induces on UTF-8 names. -/
def charCmp (a b : Char) : Ordering :=
  if a.toNat < b.toNat then .lt
  else if b.toNat < a.toNat then .gt
  else .eq

/-- Lexicographic three-way comparison on lists from an element
comparison. -/
def listCmp (cmp : α → α → Ordering) : List α → List α → Ordering
  | [], [] => .eq
  | [], _ :: _ => .lt
  | _ :: _, [] => .gt
  | a :: as, b :: bs =>
    match cmp a b with
    | .eq => listCmp cmp as bs
    | o => o

/-- Byte/code-point comparison of path components. -/
def nameCmp (a b : List Char) : Ordering := listCmp charCmp a b

/-- Model of `Path::cmp`: component-wise lexicographic comparison. -/
def pathCmp (a b : RelPath) : Ordering := listCmp nameCmp a b

/-- The non-strict order `sort_by(|a, b| a.path.cmp(&b.path))` sorts by. -/
def pathLe (a b : RelPath) : Bool :=
  match pathCmp a b with
  | .gt => false
  | _ => true

/-- Model of `count_directory_detailed` (src/counter.rs lines 159-181):
walk, count each file dropping unreadable ones, sort entries by path, and
fold the counts into a total. -/
def count_directory_detailed (compile : List Char → Option CompiledGlob)
    (config : FilterConfig) (root : FsEntry) :
    Except IoError (List FileEntry × Count) :=
  match walk_directory compile config root with
  | .error e => .error e
  | .ok file_paths =>
    let entries := file_paths.filterMap
      (fun pc => (count_file pc.2).toOption.map (fun c => FileEntry.mk pc.1 c))
    let sorted := entries.mergeSort (fun a b => pathLe a.path b.path)
    .ok (sorted, Count.sum (sorted.map FileEntry.count))

/-- Model of `count_directory` (src/counter.rs lines 154-157): the
detailed count reduced to the total and the number of entries. -/
def count_directory (compile : List Char → Option CompiledGlob)
    (config : FilterConfig) (root : FsEntry) :
    Except IoError (Count × Nat) :=
  match count_directory_detailed compile config root with
  | .error e => .error e
  | .ok (entries, total) => .ok (total, entries.length)

/-- Rust `str::replace` for a single-character needle: substitute every
occurrence. -/
def replaceChar (a : Char) (t : List Char) (s : List Char) : List Char :=
  s.flatMap (fun c => if c = a then t else [c])

/-- Model of `escape_json` (src/output.rs lines 196-202): the five
`replace` calls in source order (backslash first). -/
def escape_json (s : List Char) : List Char :=
  replaceChar '\t' "\\t".data
    (replaceChar '\r' "\\r".data
      (replaceChar '\n' "\\n".data
        (replaceChar '"' "\\\"".data
          (replaceChar '\\' "\\\\".data s))))

/-- Decimal rendering of a `usize`, as `format!`'s `{}` placeholder. -/
def natToStr (n : Nat) : List Char := (Nat.repr n).data

/-- The `JsonFileResult` struct of src/output.rs. -/
structure JsonFileResult where
  name : List Char
  count : Count
  is_directory : Bool
  file_count : Option Nat

/-- Model of `format_json_single` (src/output.rs lines 158-179): one
compact JSON object; the name is escaped, all four metric fields are
emitted unconditionally. -/
def format_json_single (r : JsonFileResult) : List Char :=
  if r.is_directory then
    "\x7b\"directory\":\"".data ++ (escape_json r.name ++
      ("\",\"file_count\":".data ++ (natToStr (r.file_count.getD 0) ++
        (",\"max_line_length\":".data ++ (natToStr r.count.max_line_length ++
          (",\"lines\":".data ++ (natToStr r.count.lines ++
            (",\"words\":".data ++ (natToStr r.count.words ++
              (",\"bytes\":".data ++ (natToStr r.count.bytes ++
                "\x7d".data)))))))))))
  else
    "\x7b\"file\":\"".data ++ (escape_json r.name ++
      ("\",\"max_line_length\":".data ++ (natToStr r.count.max_line_length ++
        (",\"lines\":".data ++ (natToStr r.count.lines ++
          (",\"words\":".data ++ (natToStr r.count.words ++
            (",\"bytes\":".data ++ (natToStr r.count.bytes ++
              "\x7d".data)))))))))

/-- The display-flag fields of the `Args` struct of src/cli.rs that govern
rendering. -/
structure Args where
  lines : Bool
  words : Bool
  bytes : Bool
  max_line_length : Bool
  no_color : Bool
  all : Bool
  compact : Bool
  verbose : Bool
  json : Bool

/-- JSON rendering of a single result as `run_json_mode` (src/main.rs)
performs it: `format_json_single` is called without consulting any of the
display flags. -/
def run_json_single (_args : Args) (r : JsonFileResult) : List Char :=
  format_json_single r

/-- Per-character escaping map following the SPEC's words: backslash,
double quote, newline, carriage return and tab are escaped, all other
characters pass through. -/
def escChar (c : Char) : List Char :=
  if c = '\\' then "\\\\".data
  else if c = '"' then "\\\"".data
  else if c = '\n' then "\\n".data
  else if c = '\r' then "\\r".data
  else if c = '\t' then "\\t".data
  else [c]

/-- The segment `k` occurs contiguously inside `s`. -/
def containsSeg (k s : List Char) : Prop := ∃ a b, s = a ++ (k ++ b)

/-- C4: the walker's accept/reject decision: a relative path matching any
exclude pattern is rejected even if it also matches an include pattern;
otherwise a non-empty include set with no match rejects; otherwise the
path is accepted — and `walk_directory` filters the traversal with exactly
this decision. -/
theorem C4_filter_decision :
    (∀ (exclude_set include_set : List CompiledGlob) (hasInc : Bool) (rel : RelPath),
      (matches_glob exclude_set rel = true →
        acceptFile exclude_set include_set hasInc rel = false) ∧
      (matches_glob exclude_set rel = false → hasInc = true →
        matches_glob include_set rel = false →
        acceptFile exclude_set include_set hasInc rel = false) ∧
      (matches_glob exclude_set rel = false →
        (hasInc = false ∨ matches_glob include_set rel = true) →
        acceptFile exclude_set include_set hasInc rel = true)) ∧
    (∀ compile config root exclude_set include_set,
      build_globset compile config.exclude_patterns = .ok exclude_set →
      build_globset compile config.include_patterns = .ok include_set →
      walk_directory compile config root =
        .ok ((walkRoot config.include_hidden root).filter
          (fun pc => acceptFile exclude_set include_set
            (!config.include_patterns.isEmpty) pc.1))) := by
  constructor
  · intro exclude_set include_set hasInc rel
    refine ⟨?_, ?_, ?_⟩
    · intro h; simp [acceptFile, h]
    · intro h1 h2 h3; simp [acceptFile, h1, h2, h3]
    · intro h1 h2
      rcases h2 with h2 | h2 <;> simp [acceptFile, h1, h2]
  · intro compile config root exclude_set include_set h1 h2
    simp [walk_directory, h1, h2]

/-- Witness for C4 at concrete inputs: a matching exclude set rejects, an
unmatched non-empty include set rejects, the empty configuration accepts,
and a `walk_directory` run with empty pattern lists returns the filtered
traversal. -/
theorem C4_witness :
    acceptFile [CompiledGlob.mk (fun _ => true) (fun _ => false)]
      [CompiledGlob.mk (fun _ => true) (fun _ => true)] true [] = false ∧
    acceptFile [] [CompiledGlob.mk (fun _ => false) (fun _ => false)] true [] = false ∧
    acceptFile [] [] false [] = true ∧
    walk_directory (fun _ => none) ⟨false, [], []⟩ (.file [] []) =
      .ok ((walkRoot false (.file [] [])).filter
        (fun pc => acceptFile [] [] (!([] : List (List Char)).isEmpty) pc.1)) := by
  refine ⟨?_, ?_, ?_, ?_⟩
  · exact (C4_filter_decision.1 _ _ _ _).1 rfl
  · exact (C4_filter_decision.1 _ _ _ _).2.1 rfl rfl rfl
  · exact (C4_filter_decision.1 _ _ _ _).2.2 rfl (Or.inl rfl)
  · exact C4_filter_decision.2 (fun _ => none) ⟨false, [], []⟩ (.file [] []) [] [] rfl rfl

theorem build_globset_ok_all_compile (compile : List Char → Option CompiledGlob) :
    ∀ (ps : List (List Char)) (gs : List CompiledGlob),
      build_globset compile ps = .ok gs → ∀ p ∈ ps, compile p ≠ none := by
  intro ps
  induction ps with
  | nil => intro gs _ p hp; cases hp
  | cons q qs ih =>
    intro gs hok p hp
    cases hq : compile q with
    | none => rw [build_globset, hq] at hok; cases hok
    | some g =>
      rw [build_globset, hq] at hok
      rcases List.mem_cons.mp hp with h | h
      · subst h; simp [hq]
      · cases hrest : build_globset compile qs with
        | error e => rw [hrest] at hok; cases hok
        | ok gs' => exact ih gs' hrest p h

theorem build_globset_err_of_bad (compile : List Char → Option CompiledGlob) :
    ∀ (ps : List (List Char)), (∃ p ∈ ps, compile p = none) →
      ∃ q ∈ ps, build_globset compile ps = .error (.invalidPattern q) ∧ compile q = none := by
  intro ps
  induction ps with
  | nil => intro ⟨p, hp, _⟩; cases hp
  | cons q qs ih =>
    intro ⟨p, hp, hbad⟩
    cases hq : compile q with
    | none => exact ⟨q, by simp, by rw [build_globset, hq], hq⟩
    | some g =>
      have hpqs : p ∈ qs := by
        rcases List.mem_cons.mp hp with h | h
        · subst h; rw [hq] at hbad; cases hbad
        · exact h
      rcases ih ⟨p, hpqs, hbad⟩ with ⟨r, hr, herr, hrbad⟩
      refine ⟨r, List.mem_cons_of_mem _ hr, ?_, hrbad⟩
      rw [build_globset, hq, herr]

theorem build_globset_ok_of_all (compile : List Char → Option CompiledGlob) :
    ∀ (ps : List (List Char)), (∀ p ∈ ps, compile p ≠ none) →
      ∃ gs, build_globset compile ps = .ok gs := by
  intro ps
  induction ps with
  | nil => intro _; exact ⟨[], rfl⟩
  | cons q qs ih =>
    intro hall
    cases hq : compile q with
    | none => exact absurd hq (hall q (by simp))
    | some g =>
      rcases ih (fun p hp => hall p (List.mem_cons_of_mem _ hp)) with ⟨gs, hgs⟩
      exact ⟨g :: gs, by rw [build_globset, hq, hgs]⟩

/-- C5: if any exclude or include pattern fails to compile, building the
compiled set fails with an invalid-pattern error, and the whole
`walk_directory` call returns that error instead of enumerating files. -/
theorem C5_invalid_pattern_aborts (compile : List Char → Option CompiledGlob)
    (config : FilterConfig) (root : FsEntry)
    (h : ∃ p ∈ config.exclude_patterns ++ config.include_patterns, compile p = none) :
    ∃ q, compile q = none ∧
      (build_globset compile config.exclude_patterns = .error (.invalidPattern q) ∨
        build_globset compile config.include_patterns = .error (.invalidPattern q)) ∧
      walk_directory compile config root = .error (.invalidPattern q) := by
  by_cases hexbad : ∃ p ∈ config.exclude_patterns, compile p = none
  · rcases build_globset_err_of_bad compile config.exclude_patterns hexbad with
      ⟨q, _, herr, hbad⟩
    refine ⟨q, hbad, Or.inl herr, ?_⟩
    simp [walk_directory, herr]
  · push_neg at hexbad
    have hinc : ∃ p ∈ config.include_patterns, compile p = none := by
      rcases h with ⟨p, hp, hbad⟩
      rcases List.mem_append.mp hp with hp1 | hp2
      · exact absurd hbad (hexbad p hp1)
      · exact ⟨p, hp2, hbad⟩
    rcases build_globset_ok_of_all compile config.exclude_patterns hexbad with ⟨gs, hok⟩
    rcases build_globset_err_of_bad compile config.include_patterns hinc with
      ⟨q, _, herr, hbad⟩
    refine ⟨q, hbad, Or.inr herr, ?_⟩
    simp [walk_directory, hok, herr]

/-- Witness for C5: one malformed exclude pattern makes the walk fail. -/
theorem C5_witness :
    ∃ q, (fun (_ : List Char) => (none : Option CompiledGlob)) q = none ∧
      (build_globset (fun _ => none) ["bad[".data] = .error (.invalidPattern q) ∨
        build_globset (fun _ => none) [] = .error (.invalidPattern q)) ∧
      walk_directory (fun _ => none) ⟨false, ["bad[".data], []⟩ (.file [] []) =
        .error (.invalidPattern q) :=
  C5_invalid_pattern_aborts (fun _ => none) ⟨false, ["bad[".data], []⟩ (.file [] [])
    ⟨"bad[".data, by simp, rfl⟩

mutual

theorem walkSub_no_hidden (pre : RelPath) (e : FsEntry)
    (hpre : ∀ comp ∈ pre, isHiddenName comp = false) :
    ∀ p c, (p, c) ∈ walkSub false pre e → ∀ comp ∈ p, isHiddenName comp = false := by
  cases e with
  | file n bs =>
    intro p c hmem comp hcomp
    simp only [walkSub, Bool.false_or] at hmem
    by_cases hn : isHiddenName n
    · simp [hn] at hmem
    · simp [hn] at hmem
      rcases hmem with ⟨hp, _⟩
      subst hp
      rcases List.mem_append.mp hcomp with h | h
      · exact hpre comp h
      · simp at h; subst h; simpa using hn
  | dir n es =>
    intro p c hmem comp hcomp
    simp only [walkSub, Bool.false_or] at hmem
    by_cases hn : isHiddenName n
    · simp [hn] at hmem
    · simp [hn] at hmem
      have hpre' : ∀ comp ∈ pre ++ [n], isHiddenName comp = false := by
        intro x hx
        rcases List.mem_append.mp hx with h | h
        · exact hpre x h
        · simp at h; subst h; simpa using hn
      exact walkSubList_no_hidden (pre ++ [n]) es hpre' p c hmem comp hcomp

theorem walkSubList_no_hidden (pre : RelPath) (es : List FsEntry)
    (hpre : ∀ comp ∈ pre, isHiddenName comp = false) :
    ∀ p c, (p, c) ∈ walkSubList false pre es → ∀ comp ∈ p, isHiddenName comp = false := by
  cases es with
  | nil => intro p c hmem; simp [walkSubList] at hmem
  | cons e es =>
    intro p c hmem comp hcomp
    simp only [walkSubList] at hmem
    rcases List.mem_append.mp hmem with h | h
    · exact walkSub_no_hidden pre e hpre p c h comp hcomp
    · exact walkSubList_no_hidden pre es hpre p c h comp hcomp

end

mutual

theorem walkSub_true_all (pre : RelPath) (e : FsEntry) :
    walkSub true pre e = allFilesSub pre e := by
  cases e with
  | file n bs => simp [walkSub, allFilesSub]
  | dir n es =>
    simp only [walkSub, Bool.true_or, if_pos]
    exact walkSubList_true_all (pre ++ [n]) es

theorem walkSubList_true_all (pre : RelPath) (es : List FsEntry) :
    walkSubList true pre es = allFilesSubList pre es := by
  cases es with
  | nil => rfl
  | cons e es =>
    simp only [walkSubList, allFilesSubList]
    rw [walkSub_true_all pre e, walkSubList_true_all pre es]

end

/-- C6: with hidden inclusion off, every file kept by the traversal has no
hidden component anywhere in its relative path (so a file inside a hidden
directory is omitted even when its own name is not hidden); the root is
always traversed into regardless of its own name; with hidden inclusion
on, the traversal keeps every file of the tree. -/
theorem C6_hidden_pruning :
    (∀ (root : FsEntry) (p : RelPath) (c : List Nat),
      (p, c) ∈ walkRoot false root → ∀ comp ∈ p, isHiddenName comp = false) ∧
    (∀ (n n' : List Char) (es : List FsEntry) (includeHidden : Bool),
      walkRoot includeHidden (.dir n es) = walkRoot includeHidden (.dir n' es)) ∧
    (∀ root : FsEntry, walkRoot true root = allFiles root) := by
  refine ⟨?_, ?_, ?_⟩
  · intro root p c hmem
    cases root with
    | file n bs =>
      simp [walkRoot] at hmem
      rcases hmem with ⟨hp, _⟩
      subst hp
      intro comp hcomp
      cases hcomp
    | dir n es =>
      exact walkSubList_no_hidden [] es (by intro x hx; cases hx) p c hmem
  · intro n n' es includeHidden; rfl
  · intro root
    cases root with
    | file n bs => rfl
    | dir n es => exact walkSubList_true_all [] es

/-- Witness for C6 at a concrete tree: the file kept by a hidden-excluding
walk of a one-file directory has no hidden path component. -/
theorem C6_witness : isHiddenName ['a'] = false :=
  C6_hidden_pruning.1 (.dir ['r'] [.file ['a'] []]) [['a']] [] (by decide) ['a'] (by decide)

theorem Count.add_comm (a b : Count) : a.add b = b.add a := by
  cases a; cases b; simp [Count.add, Nat.add_comm, Nat.max_comm]

theorem Count.add_assoc (a b c : Count) : (a.add b).add c = a.add (b.add c) := by
  cases a; cases b; cases c; simp [Count.add, Nat.add_assoc, Nat.max_assoc]

theorem foldl_add_perm {l1 l2 : List Count} (h : l1.Perm l2) :
    ∀ b, l1.foldl Count.add b = l2.foldl Count.add b := by
  induction h with
  | nil => intro b; rfl
  | cons x _ ih => intro b; simp only [List.foldl_cons]; exact ih _
  | swap x y l => intro b
                  simp only [List.foldl_cons]
                  have : (b.add y).add x = (b.add x).add y := by
                    rw [Count.add_assoc, Count.add_assoc, Count.add_comm y x]
                  rw [this]
  | trans _ _ ih1 ih2 => intro b; rw [ih1, ih2]

theorem charCmp_eq_iff (a b : Char) : charCmp a b = .eq ↔ a = b := by
  unfold charCmp
  split_ifs with h1 h2
  · constructor
    · intro h; cases h
    · intro h; subst h; omega
  · constructor
    · intro h; cases h
    · intro h; subst h; omega
  · have hn : a.toNat = b.toNat := by omega
    have hab : a = b := Char.ext (UInt32.toNat.inj hn)
    simp [hab]

theorem charCmp_swap (a b : Char) : charCmp a b = .lt ↔ charCmp b a = .gt := by
  unfold charCmp
  split_ifs <;> simp_all
  omega

theorem charCmp_trans (a b c : Char) :
    charCmp a b = .lt → charCmp b c = .lt → charCmp a c = .lt := by
  unfold charCmp
  split_ifs <;> simp_all <;> omega

theorem listCmp_eq_iff (cmp : α → α → Ordering)
    (hcmp : ∀ a b, cmp a b = .eq ↔ a = b) :
    ∀ l1 l2 : List α, listCmp cmp l1 l2 = .eq ↔ l1 = l2 := by
  intro l1
  induction l1 with
  | nil =>
    intro l2
    cases l2 with
    | nil => simp [listCmp]
    | cons b bs => simp [listCmp]
  | cons a as ih =>
    intro l2
    cases l2 with
    | nil => simp [listCmp]
    | cons b bs =>
      show (match cmp a b with
            | .eq => listCmp cmp as bs
            | o => o) = .eq ↔ a :: as = b :: bs
      cases hab : cmp a b with
      | eq =>
        have : a = b := (hcmp a b).mp hab
        subst this
        simp [ih bs]
      | lt =>
        have : a ≠ b := by
          intro h; subst h
          rw [(hcmp a a).mpr rfl] at hab; cases hab
        simp [this]
      | gt =>
        have : a ≠ b := by
          intro h; subst h
          rw [(hcmp a a).mpr rfl] at hab; cases hab
        simp [this]

theorem listCmp_swap (cmp : α → α → Ordering)
    (hcmp : ∀ a b, cmp a b = .eq ↔ a = b)
    (hswap : ∀ a b, cmp a b = .lt ↔ cmp b a = .gt) :
    ∀ l1 l2 : List α, listCmp cmp l1 l2 = .lt ↔ listCmp cmp l2 l1 = .gt := by
  intro l1
  induction l1 with
  | nil =>
    intro l2
    cases l2 with
    | nil => simp [listCmp]
    | cons b bs => simp [listCmp]
  | cons a as ih =>
    intro l2
    cases l2 with
    | nil => simp [listCmp]
    | cons b bs =>
      show (match cmp a b with
            | .eq => listCmp cmp as bs
            | o => o) = .lt ↔
           (match cmp b a with
            | .eq => listCmp cmp bs as
            | o => o) = .gt
      cases hab : cmp a b with
      | eq =>
        have he : a = b := (hcmp a b).mp hab
        subst he
        rw [(hcmp a a).mpr rfl]
        exact ih bs
      | lt =>
        have : cmp b a = .gt := (hswap a b).mp hab
        simp [this]
      | gt =>
        have : cmp b a = .lt := (hswap b a).mpr hab
        simp [this]

theorem listCmp_trans (cmp : α → α → Ordering)
    (hcmp : ∀ a b, cmp a b = .eq ↔ a = b)
    (htrans : ∀ a b c, cmp a b = .lt → cmp b c = .lt → cmp a c = .lt) :
    ∀ l1 l2 l3 : List α, listCmp cmp l1 l2 = .lt → listCmp cmp l2 l3 = .lt →
      listCmp cmp l1 l3 = .lt := by
  intro l1
  induction l1 with
  | nil =>
    intro l2 l3 h12 h23
    cases l3 with
    | nil =>
      cases l2 with
      | nil => cases h12
      | cons b bs => cases h23
    | cons c cs => simp [listCmp]
  | cons a as ih =>
    intro l2 l3 h12 h23
    cases l2 with
    | nil => cases h12
    | cons b bs =>
      cases l3 with
      | nil => cases h23
      | cons c cs =>
        show (match cmp a c with
              | .eq => listCmp cmp as cs
              | o => o) = .lt
        have h12' : (match cmp a b with
              | .eq => listCmp cmp as bs
              | o => o) = .lt := h12
        have h23' : (match cmp b c with
              | .eq => listCmp cmp bs cs
              | o => o) = .lt := h23
        cases hab : cmp a b with
        | gt => rw [hab] at h12'; cases h12'
        | eq =>
          have he : a = b := (hcmp a b).mp hab
          subst he
          rw [hab] at h12'
          cases hbc : cmp a c with
          | gt => rw [hbc] at h23'; cases h23'
          | eq =>
            have he2 : a = c := (hcmp a c).mp hbc
            subst he2
            rw [hbc] at h23'
            simp [ih bs cs h12' h23']
          | lt => simp [hbc]
        | lt =>
          rw [hab] at h12'
          cases hbc : cmp b c with
          | gt => rw [hbc] at h23'; cases h23'
          | eq =>
            have he2 : b = c := (hcmp b c).mp hbc
            subst he2
            simp [hab]
          | lt => simp [htrans a b c hab hbc]

theorem nameCmp_eq_iff (a b : List Char) : nameCmp a b = .eq ↔ a = b :=
  listCmp_eq_iff charCmp charCmp_eq_iff a b

theorem nameCmp_swap (a b : List Char) : nameCmp a b = .lt ↔ nameCmp b a = .gt :=
  listCmp_swap charCmp charCmp_eq_iff charCmp_swap a b

theorem nameCmp_trans (a b c : List Char) :
    nameCmp a b = .lt → nameCmp b c = .lt → nameCmp a c = .lt :=
  listCmp_trans charCmp charCmp_eq_iff charCmp_trans a b c

theorem pathCmp_eq_iff (a b : RelPath) : pathCmp a b = .eq ↔ a = b :=
  listCmp_eq_iff nameCmp nameCmp_eq_iff a b

theorem pathCmp_swap (a b : RelPath) : pathCmp a b = .lt ↔ pathCmp b a = .gt :=
  listCmp_swap nameCmp nameCmp_eq_iff nameCmp_swap a b

theorem pathCmp_trans (a b c : RelPath) :
    pathCmp a b = .lt → pathCmp b c = .lt → pathCmp a c = .lt :=
  listCmp_trans nameCmp nameCmp_eq_iff nameCmp_trans a b c

theorem pathLe_trans (a b c : RelPath) :
    pathLe a b = true → pathLe b c = true → pathLe a c = true := by
  unfold pathLe
  intro h1 h2
  cases hab : pathCmp a b with
  | gt => rw [hab] at h1; cases h1
  | eq =>
    have : a = b := (pathCmp_eq_iff a b).mp hab
    subst this
    exact h2
  | lt =>
    cases hbc : pathCmp b c with
    | gt => rw [hbc] at h2; cases h2
    | eq =>
      have : b = c := (pathCmp_eq_iff b c).mp hbc
      subst this
      rw [hab]
    | lt => rw [pathCmp_trans a b c hab hbc]

theorem pathLe_total (a b : RelPath) : pathLe a b = true ∨ pathLe b a = true := by
  unfold pathLe
  cases hab : pathCmp a b with
  | eq => exact Or.inl rfl
  | lt => exact Or.inl rfl
  | gt =>
    right
    cases hba : pathCmp b a with
    | eq => rfl
    | lt => rfl
    | gt =>
      have : pathCmp b a = .lt := (pathCmp_swap b a).mpr hab
      rw [this] at hba
      cases hba

/-- C7: on success, `count_directory_detailed` returns its entries sorted
by path in the total byte/code-point order, the aggregate equals the merge
of all entry counts, and that aggregate is invariant under any
permutation of the collected entries (so it does not depend on collection
order); the sort order is total. -/
theorem C7_sorted_entries_and_total (compile : List Char → Option CompiledGlob)
    (config : FilterConfig) (root : FsEntry) (es : List FileEntry) (total : Count)
    (h : count_directory_detailed compile config root = .ok (es, total)) :
    List.Pairwise (fun a b : FileEntry => pathLe a.path b.path = true) es ∧
    total = Count.sum (es.map FileEntry.count) ∧
    (∀ l : List FileEntry, l.Perm es → Count.sum (l.map FileEntry.count) = total) ∧
    (∀ a b : RelPath, pathLe a b = true ∨ pathLe b a = true) := by
  unfold count_directory_detailed at h
  cases hwalk : walk_directory compile config root with
  | error e => rw [hwalk] at h; cases h
  | ok file_paths =>
    rw [hwalk] at h
    simp only [Except.ok.injEq, Prod.mk.injEq] at h
    rcases h with ⟨hes, htot⟩
    have htrans : ∀ a b c : FileEntry,
        pathLe a.path b.path = true → pathLe b.path c.path = true →
        pathLe a.path c.path = true :=
      fun a b c h1 h2 => pathLe_trans a.path b.path c.path h1 h2
    have htotal : ∀ a b : FileEntry,
        (pathLe a.path b.path || pathLe b.path a.path) = true := by
      intro a b
      rcases pathLe_total a.path b.path with h | h <;> simp [h]
    refine ⟨?_, ?_, ?_, pathLe_total⟩
    · rw [← hes]
      exact List.sorted_mergeSort htrans htotal _
    · rw [← hes, ← htot]
    · intro l hperm
      rw [← hes] at hperm
      rw [← htot]
      exact foldl_add_perm (hperm.map FileEntry.count) Count.zero

/-- Witness for C7 on a concrete one-file directory. -/
theorem C7_witness :
    List.Pairwise (fun a b : FileEntry => pathLe a.path b.path = true)
      [FileEntry.mk [['a']] ⟨1, 1, 1, 1⟩] ∧
    (⟨1, 1, 1, 1⟩ : Count) =
      Count.sum (List.map FileEntry.count [FileEntry.mk [['a']] ⟨1, 1, 1, 1⟩]) := by
  have hok : count_directory_detailed (fun _ => none) ⟨false, [], []⟩
      (.dir ['r'] [.file ['a'] [0x61]]) =
      .ok ([FileEntry.mk [['a']] ⟨1, 1, 1, 1⟩], ⟨1, 1, 1, 1⟩) := by
    have h2 : count_directory_detailed (fun _ => none) ⟨false, [], []⟩
        (.dir ['r'] [.file ['a'] [0x61]]) =
        .ok (([FileEntry.mk [['a']] ⟨1, 1, 1, 1⟩].mergeSort
            (fun a b => pathLe a.path b.path)),
          Count.sum (([FileEntry.mk [['a']] ⟨1, 1, 1, 1⟩].mergeSort
            (fun a b => pathLe a.path b.path)).map FileEntry.count)) := rfl
    rw [List.mergeSort_singleton] at h2
    exact h2
  have h := C7_sorted_entries_and_total (fun _ => none) ⟨false, [], []⟩
    (.dir ['r'] [.file ['a'] [0x61]])
    [FileEntry.mk [['a']] ⟨1, 1, 1, 1⟩] ⟨1, 1, 1, 1⟩ hok
  exact ⟨h.1, h.2.1⟩

theorem replaceChar_append (a : Char) (t x y : List Char) :
    replaceChar a t (x ++ y) = replaceChar a t x ++ replaceChar a t y :=
  List.flatMap_append x y _

theorem escape_json_cons (c : Char) (s : List Char) :
    escape_json (c :: s) = escape_json [c] ++ escape_json s := by
  have h : c :: s = [c] ++ s := rfl
  rw [escape_json, h]
  simp only [replaceChar_append]
  rfl

theorem escape_json_single (c : Char) : escape_json [c] = escChar c := by
  by_cases h1 : c = '\\'
  · subst h1; rfl
  by_cases h2 : c = '"'
  · subst h2; rfl
  by_cases h3 : c = '\n'
  · subst h3; rfl
  by_cases h4 : c = '\r'
  · subst h4; rfl
  by_cases h5 : c = '\t'
  · subst h5; rfl
  simp [escape_json, replaceChar, escChar, h1, h2, h3, h4, h5]

theorem escape_json_flatMap (s : List Char) : escape_json s = s.flatMap escChar := by
  induction s with
  | nil => rfl
  | cons c s ih => rw [escape_json_cons, ih, List.flatMap_cons, escape_json_single]

theorem containsSeg_here (k rest : List Char) : containsSeg k (k ++ rest) :=
  ⟨[], rest, rfl⟩

theorem containsSeg_skip (x s k : List Char) (h : containsSeg k s) :
    containsSeg k (x ++ s) := by
  rcases h with ⟨a, b, hab⟩
  exact ⟨x ++ a, b, by rw [hab, List.append_assoc]⟩

theorem containsSeg_of_split (k seg rest p q : List Char) (h : seg = p ++ (k ++ q)) :
    containsSeg k (seg ++ rest) := by
  subst h
  exact ⟨p, q ++ rest, by simp [List.append_assoc]⟩

/-- C8: single-result JSON rendering ignores the display flags, its output
contains all four metric fields unconditionally, and the string escaping
is exactly the per-character substitution of backslash, double quote,
newline, carriage return and tab (so no raw control character of those
survives in an escaped name). -/
theorem C8_json_fields_and_escaping :
    (∀ (a1 a2 : Args) (r : JsonFileResult), run_json_single a1 r = run_json_single a2 r) ∧
    (∀ r : JsonFileResult,
      containsSeg "\"max_line_length\":".data (format_json_single r) ∧
      containsSeg "\"lines\":".data (format_json_single r) ∧
      containsSeg "\"words\":".data (format_json_single r) ∧
      containsSeg "\"bytes\":".data (format_json_single r)) ∧
    (∀ s : List Char, escape_json s = s.flatMap escChar) ∧
    (∀ (s : List Char) (c : Char), c ∈ escape_json s →
      c ≠ '\n' ∧ c ≠ '\r' ∧ c ≠ '\t') := by
  refine ⟨fun a1 a2 r => rfl, ?_, escape_json_flatMap, ?_⟩
  · intro r
    by_cases hr : r.is_directory = true
    · simp only [format_json_single, hr, if_true]
      refine ⟨?_, ?_, ?_, ?_⟩
      · apply containsSeg_skip
        apply containsSeg_skip
        apply containsSeg_skip
        apply containsSeg_skip
        exact containsSeg_of_split _ _ _ [','] [] (by decide)
      · apply containsSeg_skip
        apply containsSeg_skip
        apply containsSeg_skip
        apply containsSeg_skip
        apply containsSeg_skip
        apply containsSeg_skip
        exact containsSeg_of_split _ _ _ [','] [] (by decide)
      · apply containsSeg_skip
        apply containsSeg_skip
        apply containsSeg_skip
        apply containsSeg_skip
        apply containsSeg_skip
        apply containsSeg_skip
        apply containsSeg_skip
        apply containsSeg_skip
        exact containsSeg_of_split _ _ _ [','] [] (by decide)
      · apply containsSeg_skip
        apply containsSeg_skip
        apply containsSeg_skip
        apply containsSeg_skip
        apply containsSeg_skip
        apply containsSeg_skip
        apply containsSeg_skip
        apply containsSeg_skip
        apply containsSeg_skip
        apply containsSeg_skip
        exact containsSeg_of_split _ _ _ [','] [] (by decide)
    · simp only [format_json_single, hr, if_false]
      refine ⟨?_, ?_, ?_, ?_⟩
      · apply containsSeg_skip
        apply containsSeg_skip
        exact containsSeg_of_split _ _ _ ['"', ','] [] (by decide)
      · apply containsSeg_skip
        apply containsSeg_skip
        apply containsSeg_skip
        apply containsSeg_skip
        exact containsSeg_of_split _ _ _ [','] [] (by decide)
      · apply containsSeg_skip
        apply containsSeg_skip
        apply containsSeg_skip
        apply containsSeg_skip
        apply containsSeg_skip
        apply containsSeg_skip
        exact containsSeg_of_split _ _ _ [','] [] (by decide)
      · apply containsSeg_skip
        apply containsSeg_skip
        apply containsSeg_skip
        apply containsSeg_skip
        apply containsSeg_skip
        apply containsSeg_skip
        apply containsSeg_skip
        apply containsSeg_skip
        exact containsSeg_of_split _ _ _ [','] [] (by decide)
  · intro s c hc
    rw [escape_json_flatMap] at hc
    rcases List.mem_flatMap.mp hc with ⟨d, _, hd⟩
    have e1 : "\\\\".data = ['\\', '\\'] := rfl
    have e2 : "\\\"".data = ['\\', '"'] := rfl
    have e3 : "\\n".data = ['\\', 'n'] := rfl
    have e4 : "\\r".data = ['\\', 'r'] := rfl
    have e5 : "\\t".data = ['\\', 't'] := rfl
    unfold escChar at hd
    split_ifs at hd with h1 h2 h3 h4 h5 <;>
      simp only [e1, e2, e3, e4, e5, List.mem_cons, List.mem_singleton,
        List.not_mem_nil, or_false] at hd
    · rcases hd with h | h <;> (subst h; exact ⟨by decide, by decide, by decide⟩)
    · rcases hd with h | h <;> (subst h; exact ⟨by decide, by decide, by decide⟩)
    · rcases hd with h | h <;> (subst h; exact ⟨by decide, by decide, by decide⟩)
    · rcases hd with h | h <;> (subst h; exact ⟨by decide, by decide, by decide⟩)
    · rcases hd with h | h <;> (subst h; exact ⟨by decide, by decide, by decide⟩)
    · subst hd
      exact ⟨h3, h4, h5⟩

theorem walkSubList_append (includeHidden : Bool) (pre : RelPath) :
    ∀ es1 es2 : List FsEntry,
      walkSubList includeHidden pre (es1 ++ es2) =
        walkSubList includeHidden pre es1 ++ walkSubList includeHidden pre es2 := by
  intro es1 es2
  induction es1 with
  | nil => simp [walkSubList]
  | cons e es ih => simp [walkSubList, ih, List.append_assoc]

theorem filterMap_filter_singleton {α β : Type} (f : α → Option β) (g : α → Bool)
    (x : α) (hx : f x = none) : List.filterMap f (List.filter g [x]) = [] := by
  cases hg : g x <;> simp [List.filter_cons, hg, List.filterMap_cons, hx]

theorem filterMap_filter_ite {α β : Type} (f : α → Option β) (g : α → Bool)
    (x : α) (c : Prop) [Decidable c] (hx : f x = none) :
    List.filterMap f (List.filter g (if c then [x] else [])) = [] := by
  split_ifs with h
  · exact filterMap_filter_singleton f g x hx
  · rfl

theorem filterMap_filter_drop {α β : Type} (f : α → Option β) (g : α → Bool)
    (l tail : List α) (h : List.filterMap f (List.filter g tail) = []) :
    List.filterMap f (List.filter g (l ++ tail)) = List.filterMap f (List.filter g l) := by
  rw [List.filter_append, List.filterMap_append, h, List.append_nil]

/-- C9: a file whose raw contents do not decode as UTF-8 makes `count_file`
return an error, and a directory count is entirely unaffected by such a
file's presence: it is dropped from the result set and contributes nothing
to any metric. -/
theorem C9_invalid_utf8_dropped (bs : List Nat) (h : utf8Decode bs = none) :
    count_file bs = .error IoError.invalidData ∧
    ∀ (compile : List Char → Option CompiledGlob) (config : FilterConfig)
      (dirname fname : List Char) (es : List FsEntry),
      count_directory_detailed compile config
          (.dir dirname (es ++ [.file fname bs])) =
        count_directory_detailed compile config (.dir dirname es) := by
  have hcf : count_file bs = .error IoError.invalidData := by
    unfold count_file
    rw [h]
  refine ⟨hcf, ?_⟩
  intro compile config dirname fname es
  cases hex : build_globset compile config.exclude_patterns with
  | error e => simp [count_directory_detailed, walk_directory, hex]
  | ok exclude_set =>
    cases hinc : build_globset compile config.include_patterns with
    | error e => simp [count_directory_detailed, walk_directory, hex, hinc]
    | ok include_set =>
      simp only [count_directory_detailed, walk_directory, hex, hinc]
      have hroot : walkRoot config.include_hidden
          (FsEntry.dir dirname (es ++ [FsEntry.file fname bs])) =
          walkSubList config.include_hidden [] es ++
            walkSub config.include_hidden [] (FsEntry.file fname bs) := by
        simp [walkRoot, walkSubList_append, walkSubList]
      rw [hroot]
      have htail : List.filterMap
          (fun pc : RelPath × List Nat =>
            (count_file pc.2).toOption.map (fun c => FileEntry.mk pc.1 c))
          (List.filter
            (fun pc => acceptFile exclude_set include_set
              (!config.include_patterns.isEmpty) pc.1)
            (walkSub config.include_hidden [] (FsEntry.file fname bs))) = [] := by
        simp only [walkSub]
        exact filterMap_filter_ite _ _ _ _ (by simp [hcf, Except.toOption])
      rw [filterMap_filter_drop _ _ _ _ htail]
      rfl

/-- Witness for C9: the single byte 0xFF is not valid UTF-8; the file
holding it errors in `count_file` and adding it to a directory leaves the
directory count unchanged. -/
theorem C9_witness :
    count_file [0xFF] = .error IoError.invalidData ∧
    count_directory_detailed (fun _ => none) ⟨false, [], []⟩
        (.dir ['r'] ([FsEntry.file ['a'] [0x61]] ++ [.file ['x'] [0xFF]])) =
      count_directory_detailed (fun _ => none) ⟨false, [], []⟩
        (.dir ['r'] [FsEntry.file ['a'] [0x61]]) := by
  have h := C9_invalid_utf8_dropped [0xFF] (by decide)
  exact ⟨h.1, h.2 (fun _ => none) ⟨false, [], []⟩ ['r'] ['x'] [FsEntry.file ['a'] [0x61]]⟩

/-- C10: `count_directory` is exactly the summary of
`count_directory_detailed`: they fail together with the same error, and on
success its count is the detailed aggregate total and its file count the
length of the detailed entry list. -/
theorem C10_count_directory_refines_detailed
    (compile : List Char → Option CompiledGlob) (config : FilterConfig)
    (root : FsEntry) :
    (∃ e, count_directory compile config root = .error e ∧
      count_directory_detailed compile config root = .error e) ∨
    (∃ es total, count_directory_detailed compile config root = .ok (es, total) ∧
      count_directory compile config root = .ok (total, es.length)) := by
  cases hd : count_directory_detailed compile config root with
  | error e =>
    left
    refine ⟨e, ?_, rfl⟩
    simp [count_directory, hd]
  | ok p =>
    cases p with
    | mk es total =>
      right
      refine ⟨es, total, rfl, ?_⟩
      simp [count_directory, hd]

/-- Witness for C8 at a concrete input: the character kept by escaping the
one-character name `"a"` is none of the three raw control characters. -/
theorem C8_witness : 'a' ≠ '\n' ∧ 'a' ≠ '\r' ∧ 'a' ≠ '\t' :=
  C8_json_fields_and_escaping.2.2.2 ['a'] 'a' (by decide)
